import Mathlib

/-!
Verification of the bash directory-boundary checker
(`src/claude/monitor.py`, `check_bash_directory_boundary`).

The embedding is shallow and symlink-free:

* A shell command line is a `String`; `shlexSplit` models Python's
  `shlex.split` (POSIX mode, whitespace splitting, no comment chars);
  `none` models the `ValueError` raised on malformed quoting.
* An absolute filesystem path is its list of components below the root
  (`/home/user` is `["home", "user"]`); the two directory arguments of the
  checker are passed in this form.  `pathlib` keeps a path beginning with
  exactly two slashes under a distinct `//` root; the component embedding
  assumes a single-slash root, and the token predicates used by the
  general theorems exclude double-slash-rooted tokens for that reason.
* `Path.resolve()` is called by the code in non-strict mode; on a
  filesystem without symlinks it is exactly lexical normalisation
  (collapse `.` and empty components, fold `..` onto the parent), which is
  what `normComps` does.
* The checker's return value `(bool, Optional[str])` is embedded as
  `Bool × Option String`; `(true, none)` is the allow verdict.
-/

namespace Monitor

/-! ## Tokenizer: model of `shlex.split` -/

/-- The whitespace characters of `shlex` (`' \t\r\n'`). -/
def isShWs (c : Char) : Bool :=
  c == ' ' || c == '\t' || c == '\r' || c == '\n'

/-- The quote characters of `shlex` (single and double quote). -/
def isQuote (c : Char) : Bool :=
  c == '\'' || c == '"'

/-- The states of the `shlex` word scanner: between words, inside a word,
inside a quote, or right after an escape backslash (remembering whether the
escape occurred inside a double quote). -/
inductive ShState where
  | ws : ShState
  | word : ShState
  | quo : Char → ShState
  | esc : Option Char → ShState
deriving DecidableEq

/-- One-pass model of `shlex.split` in POSIX mode with whitespace splitting:
`tok` is the current word (reversed), `acc` the completed words (reversed).
`none` models the `ValueError` that `shlex` raises at end of input inside a
quote or right after a backslash. -/
def shlexCore : List Char → ShState → List Char → List String → Option (List String)
  | [], .ws, _, acc => some acc.reverse
  | [], .word, tok, acc => some ((String.mk tok.reverse :: acc).reverse)
  | [], .quo _, _, _ => none
  | [], .esc _, _, _ => none
  | c :: cs, .ws, _, acc =>
    if isShWs c then shlexCore cs .ws [] acc
    else if c == '\\' then shlexCore cs (.esc none) [] acc
    else if isQuote c then shlexCore cs (.quo c) [] acc
    else shlexCore cs .word [c] acc
  | c :: cs, .word, tok, acc =>
    if isShWs c then shlexCore cs .ws [] (String.mk tok.reverse :: acc)
    else if c == '\\' then shlexCore cs (.esc none) tok acc
    else if isQuote c then shlexCore cs (.quo c) tok acc
    else shlexCore cs .word (c :: tok) acc
  | c :: cs, .quo q, tok, acc =>
    if c == q then shlexCore cs .word tok acc
    else if q == '"' && c == '\\' then shlexCore cs (.esc (some q)) tok acc
    else shlexCore cs (.quo q) (c :: tok) acc
  | c :: cs, .esc none, tok, acc => shlexCore cs .word (c :: tok) acc
  | c :: cs, .esc (some q), tok, acc =>
    if c == '\\' || c == q then shlexCore cs (.quo q) (c :: tok) acc
    else shlexCore cs (.quo q) (c :: '\\' :: tok) acc

/-- `shlex.split(command)`: `some tokens` on success, `none` on the
`ValueError` for malformed quoting. -/
def shlexSplit (s : String) : Option (List String) :=
  shlexCore s.data .ws [] []

/-! ## Path model -/

/-- Split a character list at `/`, keeping empty pieces (as Python's path
parsing does before discarding them). -/
def splitSlashAux : List Char → List Char → List String
  | [], cur => [String.mk cur.reverse]
  | c :: cs, cur =>
    if c == '/' then String.mk cur.reverse :: splitSlashAux cs []
    else splitSlashAux cs (c :: cur)

/-- The components of a path string as `pathlib` parses it: split at `/`,
drop empty components and `.` (`Path("a/./b//c").parts = (a, b, c)`). -/
def strComps (s : String) : List String :=
  (splitSlashAux s.data []).filter (fun c => c != "" && c != ".")

/-- One step of lexical path normalisation: skip `''` and `.`, fold `..`
onto the parent, append anything else. -/
def normStep (acc : List String) (c : String) : List String :=
  if c = "" ∨ c = "." then acc
  else if c = ".." then acc.dropLast
  else acc ++ [c]

/-- Lexical normalisation of an absolute path's components: what
`Path.resolve()` computes on a filesystem without symlinks (`..` above the
root stays at the root, as in `realpath`). -/
def normComps (cs : List String) : List String :=
  cs.foldl normStep []

/-- `Path(s).name`: the final path component (components `''` and `.` are
dropped at parse time; `Path("/").name` and `Path("").name` are `""`). -/
def pathName (s : String) : String :=
  (strComps s).getLast?.getD ""

/-- `s.startswith(c)` for a single character `c`. -/
def startsWithChar (c : Char) (s : String) : Bool :=
  match s.data with
  | [] => false
  | d :: _ => d == c

/-- The characters of the rendering `str(path)` of an absolute path given by
its components (`/` for the root itself). -/
def pathChars : List String → List Char
  | [] => ['/']
  | cs => cs.foldr (fun c acc => '/' :: (c.data ++ acc)) []

/-- `str(path)` of an absolute path given by its components. -/
def pathStr (cs : List String) : String :=
  String.mk (pathChars cs)

/-! ## The checker -/

/-- `_FS_MODIFYING_COMMANDS`: commands that modify the filesystem and have
their paths checked. -/
def FS_MODIFYING_COMMANDS : List String :=
  ["mkdir", "touch", "cp", "mv", "rm", "rmdir", "ln", "install", "tee"]

/-- `_READ_ONLY_COMMANDS`: commands that are read-only or take no
filesystem paths. -/
def READ_ONLY_COMMANDS : List String :=
  ["cat", "ls", "head", "tail", "less", "more", "which", "whoami", "pwd",
   "echo", "printf", "env", "printenv", "date", "wc", "sort", "uniq",
   "diff", "file", "stat", "du", "df", "tree", "realpath", "dirname",
   "basename"]

/-- `_FIND_MUTATING_ACTIONS`: actions that make `find` filesystem-modifying. -/
def FIND_MUTATING_ACTIONS : List String :=
  ["-delete", "-exec", "-execdir", "-ok", "-okdir"]

/-- The denial message built by the code:
`f"Directory boundary violation: '{base_command}' targets '{token}' which is
outside approved directory '{resolved_approved}'"`. -/
def boundaryMsg (base tok : String) (approved : List String) : String :=
  "Directory boundary violation: '" ++ base ++ "' targets '" ++ tok ++
    "' which is outside approved directory '" ++ pathStr approved ++ "'"

/-- Resolution of one candidate token: an absolute token is resolved
directly, a relative one is joined onto the working directory first
(`Path(token).resolve()` / `(working_directory / token).resolve()`). -/
def resolveTok (wd : List String) (t : String) : List String :=
  if startsWithChar '/' t then normComps (strComps t)
  else normComps (wd ++ strComps t)

/-- The `for token in tokens[1:]` loop of the checker: skip tokens starting
with `-`, resolve the rest, and deny on the first one whose resolution is
not the approved root or a descendant of it (`relative_to` raising). -/
def checkPaths (base : String) (args : List String) (wd resolvedApproved : List String) :
    Bool × Option String :=
  match args with
  | [] => (true, none)
  | t :: ts =>
    if startsWithChar '-' t then checkPaths base ts wd resolvedApproved
    else if resolvedApproved.isPrefixOf (resolveTok wd t) then
      checkPaths base ts wd resolvedApproved
    else (false, some (boundaryMsg base t resolvedApproved))

/-- `check_bash_directory_boundary(command, working_directory,
approved_directory)`: the two directories are given as absolute-path
component lists; the result is the `(bool, Optional[str])` pair of the
code. -/
def check_bash_directory_boundary
    (command : String) (working_directory approved_directory : List String) :
    Bool × Option String :=
  match shlexSplit command with
  | none => (true, none)
  | some [] => (true, none)
  | some (t0 :: rest) =>
    if pathName t0 ∈ READ_ONLY_COMMANDS then (true, none)
    else if pathName t0 = "find" then
      if rest.any (fun t => decide (t ∈ FIND_MUTATING_ACTIONS)) then
        checkPaths (pathName t0) rest working_directory (normComps approved_directory)
      else (true, none)
    else if pathName t0 ∈ FS_MODIFYING_COMMANDS then
      checkPaths (pathName t0) rest working_directory (normComps approved_directory)
    else (true, none)

/-! ## Token predicates used to state the claims

A claim of the form "calling the checker with command `rm -rf P`" only
makes sense when `P` embeds into the command line as a single shell word:
`plainWord` captures that (no whitespace, quotes or backslashes).
`posixDoubleRoot` detects a token beginning with exactly two slashes, which
`pathlib` would keep under a distinct `//` root that the component
embedding does not represent; the containment-oriented theorems exclude
such tokens. -/

/-- A character that `shlex` passes through unchanged inside a word. -/
def plainChar (c : Char) : Bool :=
  !(isShWs c) && !(c == '\\') && !(isQuote c)

/-- A nonempty string of plain characters: it tokenizes as one shell word. -/
def plainWord (s : String) : Prop :=
  s ≠ "" ∧ ∀ c ∈ s.data, plainChar c = true

/-- Whether `pathlib` would parse the string under the special POSIX `//`
root: it begins with exactly two slashes. -/
def posixDoubleRoot (s : String) : Bool :=
  match s.data with
  | '/' :: '/' :: '/' :: _ => false
  | '/' :: '/' :: _ => true
  | _ => false

/-- A path component that renders and re-parses cleanly: nonempty, not `.`
or `..`, made of plain characters other than `/`. -/
def plainComp (s : String) : Prop :=
  s ≠ "" ∧ s ≠ "." ∧ s ≠ ".." ∧ ∀ c ∈ s.data, plainChar c = true ∧ c ≠ '/'

example : shlexSplit "rm -rf /etc/x" = some ["rm", "-rf", "/etc/x"] := by decide
example : shlexSplit "rm \"a" = none := by decide
example : shlexSplit "   " = some [] := by decide
example : shlexSplit "echo 'a b' c" = some ["echo", "a b", "c"] := by decide
example :
    check_bash_directory_boundary "rm -rf /etc/x" ["app"] ["app"] =
      (false, some "Directory boundary violation: 'rm' targets '/etc/x' which is outside approved directory '/app'") := by
  decide
example : check_bash_directory_boundary "mkdir sub" ["app"] ["app"] = (true, none) := by decide
example : check_bash_directory_boundary "cat /etc/passwd" ["app"] ["app"] = (true, none) := by decide
example : check_bash_directory_boundary "find . -name x" ["zz"] ["app"] = (true, none) := by decide
example : check_bash_directory_boundary "find . -delete" ["zz"] ["app"] =
    (false, some "Directory boundary violation: 'find' targets '.' which is outside approved directory '/app'") := by decide
example : check_bash_directory_boundary "rm ../x" ["app"] ["app"] =
    (false, some "Directory boundary violation: 'rm' targets '../x' which is outside approved directory '/app'") := by decide

/-! ## Tokenizer lemmas -/

lemma plainChar_props {c : Char} (h : plainChar c = true) :
    isShWs c = false ∧ (c == '\\') = false ∧ isQuote c = false := by
  simp only [plainChar, Bool.and_eq_true, Bool.not_eq_true'] at h
  exact ⟨h.1.1, h.1.2, h.2⟩

lemma shlexCore_word_plain (cs : List Char) (h : ∀ c ∈ cs, plainChar c = true) :
    ∀ (tok : List Char) (acc : List String),
      shlexCore cs .word tok acc = some ((String.mk (tok.reverse ++ cs) :: acc).reverse) := by
  induction cs with
  | nil => intro tok acc; simp [shlexCore]
  | cons c cs ih =>
    intro tok acc
    obtain ⟨hws, hbs, hq⟩ := plainChar_props (h c (List.mem_cons_self c cs))
    have hcs : ∀ x ∈ cs, plainChar x = true := fun x hx => h x (List.mem_cons_of_mem c hx)
    simp only [shlexCore, hws, hbs, hq, Bool.false_eq_true, if_false]
    rw [ih hcs (c :: tok) acc]
    simp

lemma shlexCore_word_plain_then (cs : List Char) (h : ∀ c ∈ cs, plainChar c = true) :
    ∀ (rest : List Char) (tok : List Char) (acc : List String),
      shlexCore (cs ++ ' ' :: rest) .word tok acc =
        shlexCore rest .ws [] (String.mk (tok.reverse ++ cs) :: acc) := by
  induction cs with
  | nil => intro rest tok acc; simp [shlexCore, isShWs]
  | cons c cs ih =>
    intro rest tok acc
    obtain ⟨hws, hbs, hq⟩ := plainChar_props (h c (List.mem_cons_self c cs))
    have hcs : ∀ x ∈ cs, plainChar x = true := fun x hx => h x (List.mem_cons_of_mem c hx)
    simp only [List.cons_append, shlexCore, hws, hbs, hq, Bool.false_eq_true, if_false,
      List.append_eq]
    rw [ih hcs rest (c :: tok) acc]
    simp

lemma shlexCore_ws_plain (P : String) (h1 : P ≠ "") (h2 : ∀ c ∈ P.data, plainChar c = true)
    (acc : List String) :
    shlexCore P.data .ws [] acc = some ((P :: acc).reverse) := by
  obtain ⟨l⟩ := P
  match l with
  | [] => exact absurd rfl h1
  | c :: cs =>
    obtain ⟨hws, hbs, hq⟩ := plainChar_props (h2 c (List.mem_cons_self c cs))
    have hcs : ∀ x ∈ cs, plainChar x = true := fun x hx => h2 x (List.mem_cons_of_mem c hx)
    simp only [shlexCore, hws, hbs, hq, Bool.false_eq_true, if_false]
    rw [shlexCore_word_plain cs hcs [c] acc]
    rfl

lemma shlexCore_ws_plain_then (cs : List Char) (h : ∀ c ∈ cs, plainChar c = true)
    (hne : cs ≠ []) (rest : List Char) (acc : List String) :
    shlexCore (cs ++ ' ' :: rest) .ws [] acc = shlexCore rest .ws [] (String.mk cs :: acc) := by
  match cs with
  | [] => exact absurd rfl hne
  | c :: cs =>
    obtain ⟨hws, hbs, hq⟩ := plainChar_props (h c (List.mem_cons_self c cs))
    have hcs : ∀ x ∈ cs, plainChar x = true := fun x hx => h x (List.mem_cons_of_mem c hx)
    simp only [List.cons_append, shlexCore, hws, hbs, hq, Bool.false_eq_true, if_false,
      List.append_eq]
    rw [shlexCore_word_plain_then cs hcs rest [c] acc]
    rfl

/-- Tokenization of `"rm -rf " ++ P` for a plain word `P`. -/
lemma shlexSplit_rm_rf (P : String) (h1 : P ≠ "") (h2 : ∀ c ∈ P.data, plainChar c = true) :
    shlexSplit ("rm -rf " ++ P) = some ["rm", "-rf", P] := by
  have hd : ("rm -rf " ++ P).data =
      (['r', 'm'] ++ ' ' :: (['-', 'r', 'f'] ++ ' ' :: P.data)) := by
    rw [String.data_append]; rfl
  unfold shlexSplit
  rw [hd, shlexCore_ws_plain_then ['r', 'm'] (by decide) (by decide),
    shlexCore_ws_plain_then ['-', 'r', 'f'] (by decide) (by decide),
    shlexCore_ws_plain P h1 h2]
  rfl

/-- Tokenization of `"mkdir " ++ P` for a plain word `P`. -/
lemma shlexSplit_mkdir (P : String) (h1 : P ≠ "") (h2 : ∀ c ∈ P.data, plainChar c = true) :
    shlexSplit ("mkdir " ++ P) = some ["mkdir", P] := by
  have hd : ("mkdir " ++ P).data = (['m', 'k', 'd', 'i', 'r'] ++ ' ' :: P.data) := by
    rw [String.data_append]; rfl
  unfold shlexSplit
  rw [hd, shlexCore_ws_plain_then ['m', 'k', 'd', 'i', 'r'] (by decide) (by decide),
    shlexCore_ws_plain P h1 h2]
  rfl

/-- Tokenization of `"rm " ++ P` for a plain word `P`. -/
lemma shlexSplit_rm (P : String) (h1 : P ≠ "") (h2 : ∀ c ∈ P.data, plainChar c = true) :
    shlexSplit ("rm " ++ P) = some ["rm", P] := by
  have hd : ("rm " ++ P).data = (['r', 'm'] ++ ' ' :: P.data) := by
    rw [String.data_append]; rfl
  unfold shlexSplit
  rw [hd, shlexCore_ws_plain_then ['r', 'm'] (by decide) (by decide),
    shlexCore_ws_plain P h1 h2]
  rfl

/-! ## Path lemmas -/

lemma foldl_normStep_no_special (A : List String)
    (h : ∀ c ∈ A, c ≠ "" ∧ c ≠ "." ∧ c ≠ "..") :
    ∀ acc, A.foldl normStep acc = acc ++ A := by
  induction A with
  | nil => intro acc; simp
  | cons c cs ih =>
    intro acc
    obtain ⟨h1, h2, h3⟩ := h c (List.mem_cons_self c cs)
    simp only [List.foldl_cons, normStep, h1, h2, h3, or_self, if_false]
    rw [ih (fun x hx => h x (List.mem_cons_of_mem c hx)) (acc ++ [c])]
    simp

/-- A path whose components are ordinary names is already canonical. -/
lemma normComps_eq_self (A : List String)
    (h : ∀ c ∈ A, c ≠ "" ∧ c ≠ "." ∧ c ≠ "..") : normComps A = A := by
  unfold normComps
  rw [foldl_normStep_no_special A h []]
  simp

lemma normComps_append (A l : List String) :
    normComps (A ++ l) = l.foldl normStep (normComps A) := by
  unfold normComps
  rw [List.foldl_append]

/-! ## Lemmas about the path-checking loop -/

lemma checkPaths_allow_flags (base : String) (wd ap : List String) :
    ∀ args, (∀ t ∈ args, startsWithChar '-' t = true) →
      checkPaths base args wd ap = (true, none) := by
  intro args
  induction args with
  | nil => intro _; rfl
  | cons t ts ih =>
    intro h
    simp only [checkPaths, h t (List.mem_cons_self t ts), if_true]
    exact ih fun x hx => h x (List.mem_cons_of_mem t hx)

lemma checkPaths_allow_inside (base : String) (wd ap : List String) :
    ∀ args, (∀ t ∈ args, startsWithChar '-' t = true ∨
        ap.isPrefixOf (resolveTok wd t) = true) →
      checkPaths base args wd ap = (true, none) := by
  intro args
  induction args with
  | nil => intro _; rfl
  | cons t ts ih =>
    intro h
    have hts : ∀ x ∈ ts, startsWithChar '-' x = true ∨
        ap.isPrefixOf (resolveTok wd x) = true :=
      fun x hx => h x (List.mem_cons_of_mem t hx)
    rcases h t (List.mem_cons_self t ts) with ht | ht
    · simp only [checkPaths, ht, if_true]
      exact ih hts
    · by_cases hq : startsWithChar '-' t = true
      · simp only [checkPaths, hq, if_true]
        exact ih hts
      · rw [Bool.not_eq_true] at hq
        simp only [checkPaths, hq, Bool.false_eq_true, if_false, ht, if_true]
        exact ih hts

lemma checkPaths_deny_first (base : String) (wd ap : List String) :
    ∀ (pre : List String),
      (∀ t ∈ pre, startsWithChar '-' t = true ∨ ap.isPrefixOf (resolveTok wd t) = true) →
      ∀ (tok : String) (rest : List String), startsWithChar '-' tok = false →
        ap.isPrefixOf (resolveTok wd tok) = false →
        checkPaths base (pre ++ tok :: rest) wd ap = (false, some (boundaryMsg base tok ap)) := by
  intro pre
  induction pre with
  | nil =>
    intro _ tok rest hf ho
    simp only [List.nil_append, checkPaths, hf, ho, Bool.false_eq_true, if_false]
  | cons p ps ih =>
    intro h tok rest hf ho
    have hps : ∀ t ∈ ps, startsWithChar '-' t = true ∨
        ap.isPrefixOf (resolveTok wd t) = true :=
      fun x hx => h x (List.mem_cons_of_mem p hx)
    rcases h p (List.mem_cons_self p ps) with hp | hp
    · simp only [List.cons_append, checkPaths, hp, if_true]
      exact ih hps tok rest hf ho
    · by_cases hq : startsWithChar '-' p = true
      · simp only [List.cons_append, checkPaths, hq, if_true]
        exact ih hps tok rest hf ho
      · rw [Bool.not_eq_true] at hq
        simp only [List.cons_append, checkPaths, hq, Bool.false_eq_true, if_false, hp, if_true]
        exact ih hps tok rest hf ho

lemma checkPaths_denial_shape (base : String) (wd ap : List String) :
    ∀ (args : List String) (b : Bool) (r : String),
      checkPaths base args wd ap = (b, some r) →
      b = false ∧ ∃ t, r = boundaryMsg base t ap := by
  intro args
  induction args with
  | nil =>
    intro b r h
    simp [checkPaths, Prod.ext_iff] at h
  | cons t ts ih =>
    intro b r h
    by_cases h1 : startsWithChar '-' t = true
    · rw [checkPaths, if_pos h1] at h
      exact ih b r h
    · rw [Bool.not_eq_true] at h1
      by_cases h2 : ap.isPrefixOf (resolveTok wd t) = true
      · rw [checkPaths, if_neg (by simp [h1]), if_pos h2] at h
        exact ih b r h
      · rw [Bool.not_eq_true] at h2
        rw [checkPaths, if_neg (by simp [h1]), if_neg (by simp [h2])] at h
        have hb := congrArg Prod.fst h
        have hr := congrArg Prod.snd h
        simp only at hb hr
        exact ⟨hb.symm, t, (Option.some.inj hr).symm⟩

/-! ## Classification lemmas -/

/-- A filesystem-modifying command name is neither read-only nor `find`. -/
lemma fs_cmd_props (b : String) (h : b ∈ FS_MODIFYING_COMMANDS) :
    b ∉ READ_ONLY_COMMANDS ∧ b ≠ "find" := by
  simp only [FS_MODIFYING_COMMANDS, List.mem_cons, List.not_mem_nil, or_false] at h
  rcases h with rfl | rfl | rfl | rfl | rfl | rfl | rfl | rfl | rfl <;>
    exact ⟨by decide, by decide⟩

/-! ## Unfolding the checker at the classification stage -/

lemma check_eq_checkPaths_of_fs (cmd : String) (wd ad : List String) (t0 : String)
    (ts : List String) (hs : shlexSplit cmd = some (t0 :: ts))
    (hfs : pathName t0 ∈ FS_MODIFYING_COMMANDS) :
    check_bash_directory_boundary cmd wd ad =
      checkPaths (pathName t0) ts wd (normComps ad) := by
  obtain ⟨hro, hfind⟩ := fs_cmd_props _ hfs
  simp only [check_bash_directory_boundary, hs, hro, hfind, hfs, if_true, if_false]

/-! ## Claim theorems -/

/-- C4: a command whose base executable (final path component of the first
token, matched by exact string equality, hence case-sensitively) is in the
read-only set is Allowed whatever the remaining arguments are: the checker
returns before any path checking. -/
theorem readonly_always_allowed (cmd : String) (wd ad : List String) (t0 : String)
    (ts : List String) (hs : shlexSplit cmd = some (t0 :: ts))
    (hro : pathName t0 ∈ READ_ONLY_COMMANDS) :
    check_bash_directory_boundary cmd wd ad = (true, none) := by
  simp only [check_bash_directory_boundary, hs, hro, if_true]

/-- Witness for C4: `cat /etc/passwd` is allowed although `/etc/passwd` is
outside the approved directory `/app`. -/
theorem readonly_always_allowed_witness :
    shlexSplit "cat /etc/passwd" = some ["cat", "/etc/passwd"] ∧
    pathName "cat" ∈ READ_ONLY_COMMANDS ∧
    check_bash_directory_boundary "cat /etc/passwd" ["app"] ["app"] = (true, none) :=
  ⟨by decide, by decide,
    readonly_always_allowed "cat /etc/passwd" ["app"] ["app"] "cat" ["/etc/passwd"]
      (by decide) (by decide)⟩

/-- C5: a command string that fails tokenization (`shlex.split` raising) or
tokenizes to no tokens at all is Allowed — the checker fails open and never
surfaces an error. -/
theorem failopen_allowed (cmd : String) (wd ad : List String)
    (h : shlexSplit cmd = none ∨ shlexSplit cmd = some []) :
    check_bash_directory_boundary cmd wd ad = (true, none) := by
  rcases h with h | h <;> simp only [check_bash_directory_boundary, h]

/-- Witness for C5: a command with an unterminated double quote fails
tokenization and is allowed; a whitespace-only command tokenizes to no
tokens and is allowed. -/
theorem failopen_allowed_witness :
    (shlexSplit "rm \"a" = none ∨ shlexSplit "rm \"a" = some []) ∧
    check_bash_directory_boundary "rm \"a" ["app"] ["app"] = (true, none) ∧
    (shlexSplit "   " = none ∨ shlexSplit "   " = some []) ∧
    check_bash_directory_boundary "   " ["app"] ["app"] = (true, none) :=
  ⟨Or.inl (by decide), failopen_allowed _ ["app"] ["app"] (Or.inl (by decide)),
   Or.inr (by decide), failopen_allowed _ ["app"] ["app"] (Or.inr (by decide))⟩

/-- C6: a command whose base executable is not `find`, not read-only and
not filesystem-modifying is Allowed immediately (allow-by-default for
unrecognized executables). -/
theorem unrecognized_allowed (cmd : String) (wd ad : List String) (t0 : String)
    (ts : List String) (hs : shlexSplit cmd = some (t0 :: ts))
    (h1 : pathName t0 ∉ READ_ONLY_COMMANDS) (h2 : pathName t0 ≠ "find")
    (h3 : pathName t0 ∉ FS_MODIFYING_COMMANDS) :
    check_bash_directory_boundary cmd wd ad = (true, none) := by
  simp only [check_bash_directory_boundary, hs]
  rw [if_neg h1, if_neg h2, if_neg h3]

/-- Witness for C6: `python x.py` is unrecognized and allowed even with the
working directory outside the approved directory. -/
theorem unrecognized_allowed_witness :
    shlexSplit "python x.py" = some ["python", "x.py"] ∧
    pathName "python" ∉ READ_ONLY_COMMANDS ∧ pathName "python" ≠ "find" ∧
    pathName "python" ∉ FS_MODIFYING_COMMANDS ∧
    check_bash_directory_boundary "python x.py" ["out"] ["app"] = (true, none) :=
  ⟨by decide, by decide, by decide, by decide,
    unrecognized_allowed "python x.py" ["out"] ["app"] "python" ["x.py"]
      (by decide) (by decide) (by decide) (by decide)⟩

/-- C7: for a command whose base executable is exactly `find`, if no token
after the first is a find-mutating action the command is Allowed
immediately; if one is, the verdict is that of the path-checking loop run
on all the tokens after the first. -/
theorem find_conditionally_mutating (cmd : String) (wd ad : List String) (t0 : String)
    (ts : List String) (hs : shlexSplit cmd = some (t0 :: ts))
    (hfind : pathName t0 = "find") :
    (ts.any (fun t => decide (t ∈ FIND_MUTATING_ACTIONS)) = false →
      check_bash_directory_boundary cmd wd ad = (true, none)) ∧
    (ts.any (fun t => decide (t ∈ FIND_MUTATING_ACTIONS)) = true →
      check_bash_directory_boundary cmd wd ad = checkPaths "find" ts wd (normComps ad)) := by
  have hro : pathName t0 ∉ READ_ONLY_COMMANDS := by rw [hfind]; decide
  constructor
  · intro hany
    simp only [check_bash_directory_boundary, hs]
    rw [if_neg hro, if_pos hfind]
    simp [hany]
  · intro hany
    simp only [check_bash_directory_boundary, hs]
    rw [if_neg hro, if_pos hfind]
    simp [hany, hfind]

/-- Witness for C7: `find . -name` has no mutating action and is allowed
even from outside the approved directory; `find . -delete` goes to path
checking, is allowed when the working directory is the approved `/app` and
denied when it is `/out`. -/
theorem find_conditionally_mutating_witness :
    shlexSplit "find . -delete" = some ["find", ".", "-delete"] ∧
    check_bash_directory_boundary "find . -delete" ["app"] ["app"] =
      checkPaths "find" [".", "-delete"] ["app"] (normComps ["app"]) ∧
    check_bash_directory_boundary "find . -delete" ["app"] ["app"] = (true, none) ∧
    check_bash_directory_boundary "find . -delete" ["out"] ["app"] =
      (false, some (boundaryMsg "find" "." (normComps ["app"]))) ∧
    check_bash_directory_boundary "find . -name x" ["out"] ["app"] = (true, none) :=
  ⟨by decide,
   (find_conditionally_mutating "find . -delete" ["app"] ["app"] "find" [".", "-delete"]
      (by decide) (by decide)).2 (by decide),
   by decide, by decide, by decide⟩

/-- C10: a filesystem-mutating command all of whose arguments after the
first token begin with `-` (or that has no further tokens) is Allowed: the
loop skips every token and no candidate reaches the containment test. -/
theorem mutating_all_flags_allowed (cmd : String) (wd ad : List String) (t0 : String)
    (ts : List String) (hs : shlexSplit cmd = some (t0 :: ts))
    (hfs : pathName t0 ∈ FS_MODIFYING_COMMANDS)
    (hflags : ∀ t ∈ ts, startsWithChar '-' t = true) :
    check_bash_directory_boundary cmd wd ad = (true, none) := by
  rw [check_eq_checkPaths_of_fs cmd wd ad t0 ts hs hfs]
  exact checkPaths_allow_flags _ _ _ ts hflags

/-- Witness for C10: `rm -rf` (no path argument at all beyond the flag) is
allowed even with the working directory outside the approved directory. -/
theorem mutating_all_flags_allowed_witness :
    shlexSplit "rm -rf" = some ["rm", "-rf"] ∧
    pathName "rm" ∈ FS_MODIFYING_COMMANDS ∧
    check_bash_directory_boundary "rm -rf" ["out"] ["app"] = (true, none) :=
  ⟨by decide, by decide,
    mutating_all_flags_allowed "rm -rf" ["out"] ["app"] "rm" ["-rf"] (by decide) (by decide)
      (by decide)⟩

/-- C1 (amended): for a path `P` that forms a single shell word, does not
begin with `-`, and resolves strictly outside the approved directory `A`,
the command `rm -rf P` is Denied and the reason is the boundary-violation
message naming the base command `rm` and the raw argument `P`. -/
theorem rm_outside_denied (P : String) (wd A : List String) (hP : plainWord P)
    (hflag : startsWithChar '-' P = false)
    (hout : (normComps A).isPrefixOf (resolveTok wd P) = false) :
    check_bash_directory_boundary ("rm -rf " ++ P) wd A =
      (false, some (boundaryMsg "rm" P (normComps A))) := by
  obtain ⟨h1, h2⟩ := hP
  have hs := shlexSplit_rm_rf P h1 h2
  rw [check_eq_checkPaths_of_fs _ wd A "rm" ["-rf", P] hs (by decide)]
  have hname : pathName "rm" = "rm" := by decide
  rw [hname]
  exact checkPaths_deny_first "rm" wd (normComps A) ["-rf"]
    (fun t ht => Or.inl (by rcases List.mem_singleton.mp ht with rfl; decide))
    P [] hflag hout

/-- Counterexample to C1 as stated: the path `-x` resolves strictly outside
the approved directory `/approved`, but `rm -rf -x` is Allowed, because a
token beginning with `-` is skipped as a flag and never reaches the
containment test. -/
theorem rm_outside_flag_cex :
    (normComps ["approved"]).isPrefixOf (resolveTok ["elsewhere"] "-x") = false ∧
    check_bash_directory_boundary "rm -rf -x" ["elsewhere"] ["approved"] = (true, none) := by
  decide

/-- Witness for C1: `rm -rf evil` from `/tmp` against approved `/app` is
denied with the exact boundary-violation reason. -/
theorem rm_outside_denied_witness :
    plainWord "evil" ∧ startsWithChar '-' "evil" = false ∧
    (normComps ["app"]).isPrefixOf (resolveTok ["tmp"] "evil") = false ∧
    check_bash_directory_boundary ("rm -rf " ++ "evil") ["tmp"] ["app"] =
      (false, some (boundaryMsg "rm" "evil" (normComps ["app"]))) :=
  ⟨⟨by decide, by decide⟩, by decide, by decide,
    rm_outside_denied "evil" ["tmp"] ["app"] ⟨by decide, by decide⟩ (by decide) (by decide)⟩

/-- C2: for a path `P` that forms a single shell word (not double-slash
rooted) and resolves strictly inside the approved directory `A`, the
command `mkdir P` is Allowed. -/
theorem mkdir_inside_allowed (P : String) (wd A : List String) (hP : plainWord P)
    (hroot : posixDoubleRoot P = false)
    (hin : (normComps A).isPrefixOf (resolveTok wd P) = true)
    (hstrict : resolveTok wd P ≠ normComps A) :
    check_bash_directory_boundary ("mkdir " ++ P) wd A = (true, none) := by
  obtain ⟨h1, h2⟩ := hP
  have hs := shlexSplit_mkdir P h1 h2
  rw [check_eq_checkPaths_of_fs _ wd A "mkdir" [P] hs (by decide)]
  exact checkPaths_allow_inside _ wd (normComps A) [P]
    (fun t ht => by rcases List.mem_singleton.mp ht with rfl; exact Or.inr hin)

/-- Witness for C2: `mkdir sub` from `/app` against approved `/app` creates
`/app/sub`, strictly inside, and is allowed. -/
theorem mkdir_inside_allowed_witness :
    plainWord "sub" ∧ posixDoubleRoot "sub" = false ∧
    (normComps ["app"]).isPrefixOf (resolveTok ["app"] "sub") = true ∧
    resolveTok ["app"] "sub" ≠ normComps ["app"] ∧
    check_bash_directory_boundary ("mkdir " ++ "sub") ["app"] ["app"] = (true, none) :=
  ⟨⟨by decide, by decide⟩, by decide, by decide, by decide,
    mkdir_inside_allowed "sub" ["app"] ["app"] ⟨by decide, by decide⟩ (by decide) (by decide)
      (by decide)⟩

/-- C8: once the loop reaches a candidate token that is not a flag and
whose resolution is not the approved root or a descendant of it, the
checker denies with exactly
`Directory boundary violation: '<command>' targets '<argument>' which is
outside approved directory '<approved_root>'`, independently of every later
token (`others` is arbitrary); earlier tokens beginning with `-` are
skipped and never treated as paths. -/
theorem first_violation_denied (cmd : String) (wd ad : List String) (t0 : String)
    (pre : List String) (tok : String) (others : List String)
    (hs : shlexSplit cmd = some (t0 :: (pre ++ tok :: others)))
    (hfs : pathName t0 ∈ FS_MODIFYING_COMMANDS)
    (hpre : ∀ t ∈ pre, startsWithChar '-' t = true ∨
        (normComps ad).isPrefixOf (resolveTok wd t) = true)
    (hflag : startsWithChar '-' tok = false)
    (hout : (normComps ad).isPrefixOf (resolveTok wd tok) = false) :
    check_bash_directory_boundary cmd wd ad =
      (false, some ("Directory boundary violation: '" ++ pathName t0 ++ "' targets '" ++
        tok ++ "' which is outside approved directory '" ++ pathStr (normComps ad) ++ "'")) := by
  rw [check_eq_checkPaths_of_fs cmd wd ad t0 _ hs hfs]
  exact checkPaths_deny_first (pathName t0) wd (normComps ad) pre hpre tok others hflag hout

/-- Witness for C8: `rm -rf /etc/x` against approved `/app` skips the flag
`-rf` and denies on `/etc/x` with the exact reason string. -/
theorem first_violation_denied_witness :
    shlexSplit "rm -rf /etc/x" = some ("rm" :: (["-rf"] ++ "/etc/x" :: [])) ∧
    check_bash_directory_boundary "rm -rf /etc/x" ["app"] ["app"] =
      (false, some ("Directory boundary violation: '" ++ pathName "rm" ++ "' targets '" ++
        "/etc/x" ++ "' which is outside approved directory '" ++
        pathStr (normComps ["app"]) ++ "'")) :=
  ⟨by decide,
    first_violation_denied "rm -rf /etc/x" ["app"] ["app"] "rm" ["-rf"] "/etc/x" []
      (by decide) (by decide)
      (fun t ht => Or.inl (by rcases List.mem_singleton.mp ht with rfl; decide))
      (by decide) (by decide)⟩

/-- A filesystem snapshot without symlinks, given as the list of canonical
paths that exist.  Strict canonicalisation (`Path.resolve(strict=True)`) of
a candidate token succeeds exactly when its lexically resolved path exists
in the snapshot.  The checker never consults the snapshot: it calls
`resolve()` in its default non-strict mode, which does not raise for
nonexistent or dangling components. -/
def strictResolvable (fs : List (List String)) (wd : List String) (t : String) : Prop :=
  resolveTok wd t ∈ fs

/-- Counterexample to C9 as stated: in a snapshot where only `/` and `/app`
exist, the candidate `ghost` of `touch ghost` cannot be strictly
canonicalised, yet the checker returns Allowed — it does not deny with a
distinct "path could not be resolved" reason (no such branch exists in the
code). -/
theorem unresolvable_failopen_cex :
    ¬ strictResolvable [[], ["app"]] ["app"] "ghost" ∧
    check_bash_directory_boundary "touch ghost" ["app"] ["app"] = (true, none) := by
  refine ⟨?_, by decide⟩
  unfold strictResolvable
  decide

/-- C9 (amended): resolution in the checker never fails (non-strict
`resolve()`), and the only denial reason it ever produces is the
boundary-violation format; there is no distinct "path could not be
resolved" denial. -/
theorem denial_reason_format (cmd : String) (wd ad : List String) (b : Bool) (r : String)
    (h : check_bash_directory_boundary cmd wd ad = (b, some r)) :
    b = false ∧ ∃ base tok, r = boundaryMsg base tok (normComps ad) := by
  rcases hsp : shlexSplit cmd with _ | toks
  · simp only [check_bash_directory_boundary, hsp] at h
    simp [Prod.ext_iff] at h
  · match toks with
    | [] =>
      simp only [check_bash_directory_boundary, hsp] at h
      simp [Prod.ext_iff] at h
    | t0 :: ts =>
      simp only [check_bash_directory_boundary, hsp] at h
      by_cases hro : pathName t0 ∈ READ_ONLY_COMMANDS
      · rw [if_pos hro] at h
        simp [Prod.ext_iff] at h
      · rw [if_neg hro] at h
        by_cases hfind : pathName t0 = "find"
        · rw [if_pos hfind] at h
          by_cases hany : ts.any (fun t => decide (t ∈ FIND_MUTATING_ACTIONS)) = true
          · rw [if_pos hany] at h
            obtain ⟨hb, tok, hr⟩ := checkPaths_denial_shape _ wd (normComps ad) ts b r h
            exact ⟨hb, _, tok, hr⟩
          · rw [if_neg hany] at h
            simp [Prod.ext_iff] at h
        · rw [if_neg hfind] at h
          by_cases hfs : pathName t0 ∈ FS_MODIFYING_COMMANDS
          · rw [if_pos hfs] at h
            obtain ⟨hb, tok, hr⟩ := checkPaths_denial_shape _ wd (normComps ad) ts b r h
            exact ⟨hb, _, tok, hr⟩
          · rw [if_neg hfs] at h
            simp [Prod.ext_iff] at h

/-- Witness for C9 (amended): the denial produced for `rm /etc/x` has the
boundary-violation format. -/
theorem denial_reason_format_witness :
    false = false ∧ ∃ base tok,
      "Directory boundary violation: 'rm' targets '/etc/x' which is outside approved directory '/app'" =
        boundaryMsg base tok (normComps ["app"]) :=
  denial_reason_format "rm /etc/x" ["app"] ["app"] false _ (by decide)

/-! ## Rendering an absolute path back to a token (for C3)

C3 compares `rm ../outside` with `rm <parent-of-A>/outside`, which requires
turning the parent directory back into a command-line token: `pathStr`
renders it, and the lemmas below re-parse the rendering. -/

/-- The body of `pathChars` on a nonempty component list. -/
def renderAux (cs : List String) : List Char :=
  cs.foldr (fun c acc => '/' :: (c.data ++ acc)) []

lemma pathChars_cons (c : String) (cs : List String) :
    pathChars (c :: cs) = renderAux (c :: cs) := rfl

lemma renderAux_append (p q : List String) :
    renderAux (p ++ q) = renderAux p ++ renderAux q := by
  induction p with
  | nil => rfl
  | cons c cs ih =>
    show '/' :: (c.data ++ renderAux (cs ++ q)) = ('/' :: (c.data ++ renderAux cs)) ++ renderAux q
    rw [ih]
    simp

lemma splitSlashAux_noslash (l : List Char) (hl : ∀ x ∈ l, (x == '/') = false) :
    ∀ cur, splitSlashAux l cur = [String.mk (cur.reverse ++ l)] := by
  induction l with
  | nil => intro cur; simp [splitSlashAux]
  | cons c cs ih =>
    intro cur
    simp only [splitSlashAux, hl c (List.mem_cons_self c cs), Bool.false_eq_true, if_false]
    rw [ih (fun x hx => hl x (List.mem_cons_of_mem c hx)) (c :: cur)]
    simp

lemma splitSlashAux_noslash_then (l : List Char) (hl : ∀ x ∈ l, (x == '/') = false) :
    ∀ (rest cur : List Char),
      splitSlashAux (l ++ '/' :: rest) cur =
        String.mk (cur.reverse ++ l) :: splitSlashAux rest [] := by
  induction l with
  | nil => intro rest cur; simp [splitSlashAux]
  | cons c cs ih =>
    intro rest cur
    simp only [List.cons_append, splitSlashAux, hl c (List.mem_cons_self c cs),
      Bool.false_eq_true, if_false, List.append_eq]
    rw [ih (fun x hx => hl x (List.mem_cons_of_mem c hx)) rest (c :: cur)]
    simp

lemma splitSlash_render (cs : List String)
    (h : ∀ c ∈ cs, ∀ x ∈ String.data c, (x == '/') = false) :
    ∀ (c0 : List Char), (∀ x ∈ c0, (x == '/') = false) →
      splitSlashAux (c0 ++ renderAux cs) [] = String.mk c0 :: cs := by
  induction cs with
  | nil =>
    intro c0 h0
    show splitSlashAux (c0 ++ []) [] = [String.mk c0]
    rw [List.append_nil, splitSlashAux_noslash c0 h0 []]
    simp
  | cons c cs ih =>
    intro c0 h0
    show splitSlashAux (c0 ++ ('/' :: (c.data ++ renderAux cs))) [] = String.mk c0 :: c :: cs
    rw [splitSlashAux_noslash_then c0 h0]
    rw [ih (fun x hx => h x (List.mem_cons_of_mem c hx)) c.data
      (h c (List.mem_cons_self c cs))]
    simp

lemma plainComp_chars {c : String} (hc : plainComp c) :
    ∀ x ∈ c.data, (x == '/') = false := by
  intro x hx
  rcases hc with ⟨-, -, -, h4⟩
  rcases h4 x hx with ⟨-, hslash⟩
  cases hb : x == '/'
  · rfl
  · exact absurd (by simpa using hb) hslash

/-- Re-parsing the rendered token `<p>/outside`: its components are
`p ++ ["outside"]`. -/
lemma strComps_absToken (p : List String) (hp : ∀ c ∈ p, plainComp c) :
    strComps (pathStr p ++ "/outside") = p ++ ["outside"] := by
  have houtside : ∀ x ∈ String.data "outside", (x == '/') = false := by decide
  cases p with
  | nil => decide
  | cons q qs =>
    have hd : (pathStr (q :: qs) ++ "/outside").data = renderAux ((q :: qs) ++ ["outside"]) := by
      rw [String.data_append, renderAux_append]
      rfl
    unfold strComps
    rw [hd]
    show (splitSlashAux ('/' :: (q.data ++ renderAux (qs ++ ["outside"]))) []).filter _ =
      (q :: qs) ++ ["outside"]
    rw [show splitSlashAux ('/' :: (q.data ++ renderAux (qs ++ ["outside"]))) [] =
        "" :: splitSlashAux (q.data ++ renderAux (qs ++ ["outside"])) [] from by
      simp [splitSlashAux]]
    rw [splitSlash_render (qs ++ ["outside"])
      (by
        intro c hc
        rcases List.mem_append.mp hc with hc | hc
        · exact plainComp_chars (hp c (List.mem_cons_of_mem q hc))
        · rcases List.mem_singleton.mp hc with rfl
          exact houtside)
      q.data (plainComp_chars (hp q (List.mem_cons_self q qs)))]
    rw [List.filter_cons, List.filter_cons]
    have hq : plainComp q := hp q (List.mem_cons_self q qs)
    have hqpred : ((String.mk q.data != "") && (String.mk q.data != ".")) = true := by
      have h1 : String.mk q.data = q := rfl
      rw [h1]
      simp [bne_iff_ne, hq.1, hq.2.1]
    simp only [show (("" != "") && ("" != ".")) = false from rfl, if_false, hqpred, if_true]
    have : (qs ++ ["outside"]).filter (fun c => c != "" && c != ".") = qs ++ ["outside"] := by
      rw [List.filter_eq_self]
      intro a ha
      rcases List.mem_append.mp ha with ha | ha
      · have hqa := hp a (List.mem_cons_of_mem q ha)
        simp [bne_iff_ne, hqa.1, hqa.2.1]
      · rcases List.mem_singleton.mp ha with rfl
        decide
    rw [this]
    rfl

lemma startsWithChar_of_data (c d : Char) (s : String) (l : List Char)
    (h : s.data = d :: l) : startsWithChar c s = (d == c) := by
  unfold startsWithChar
  rw [h]

lemma pathChars_shape (p : List String) : ∃ l, pathChars p = '/' :: l := by
  cases p with
  | nil => exact ⟨[], rfl⟩
  | cons c cs => exact ⟨c.data ++ renderAux cs, rfl⟩

lemma absToken_data (p : List String) :
    (pathStr p ++ "/outside").data = pathChars p ++ '/' :: String.data "outside" := by
  rw [String.data_append]
  rfl

lemma renderAux_plain (p : List String)
    (h : ∀ c ∈ p, ∀ x ∈ String.data c, plainChar x = true) :
    ∀ x ∈ renderAux p, plainChar x = true := by
  induction p with
  | nil => intro x hx; simp [renderAux] at hx
  | cons c cs ih =>
    intro x hx
    rcases List.mem_cons.mp hx with rfl | hx
    · decide
    · rcases List.mem_append.mp hx with h1 | h2
      · exact h c (List.mem_cons_self c cs) x h1
      · exact ih (fun a ha => h a (List.mem_cons_of_mem c ha)) x h2

lemma absToken_plain (p : List String) (hp : ∀ c ∈ p, plainComp c) :
    ∀ x ∈ (pathStr p ++ "/outside").data, plainChar x = true := by
  intro x hx
  rw [absToken_data] at hx
  rcases List.mem_append.mp hx with h1 | h2
  · cases p with
    | nil =>
      rcases List.mem_singleton.mp h1 with rfl
      decide
    | cons q qs =>
      rw [pathChars_cons] at h1
      exact renderAux_plain (q :: qs) (fun c hc x hx => ((hp c hc).2.2.2 x hx).1) x h1
  · rcases List.mem_cons.mp h2 with rfl | h3
    · decide
    · have hall : ∀ y ∈ String.data "outside", plainChar y = true := by decide
      exact hall x h3

lemma not_prefix_parent_outside (A : List String) (hne : A ≠ [])
    (hlast : A.getLast? ≠ some "outside") :
    ¬ A <+: (A.dropLast ++ ["outside"]) := by
  intro hp
  have hA : A.dropLast ++ [A.getLast hne] = A := List.dropLast_append_getLast hne
  have hp2 : A.dropLast ++ [A.getLast hne] <+: A.dropLast ++ ["outside"] := by
    rw [hA]
    exact hp
  have h1 : [A.getLast hne] <+: ["outside"] := (List.prefix_append_right_inj A.dropLast).mp hp2
  obtain ⟨t, ht⟩ := h1
  have h2 : A.getLast hne :: t = ["outside"] := by simpa using ht
  have hx : A.getLast hne = "outside" := (List.cons.inj h2).1
  exact hlast (by rw [List.getLast?_eq_getLast A hne, hx])

/-- C3 (amended): with working directory equal to the approved directory
`A`, the commands `rm ../outside` and `rm <parent-of-A>/outside` produce
the same verdict because both arguments resolve to the same target; that
verdict is Denied provided `A` is not the root and `A`'s own final
component is not itself named `outside` (otherwise the target is `A`
itself, or inside it, and both commands are equally Allowed). -/
theorem traversal_equivalence (A : List String) (hA : ∀ c ∈ A, plainComp c)
    (hne : A ≠ []) (hlast : A.getLast? ≠ some "outside") :
    check_bash_directory_boundary "rm ../outside" A A =
      (false, some (boundaryMsg "rm" "../outside" A)) ∧
    check_bash_directory_boundary ("rm " ++ (pathStr A.dropLast ++ "/outside")) A A =
      (false, some (boundaryMsg "rm" (pathStr A.dropLast ++ "/outside") A)) := by
  have hgood : ∀ c ∈ A, c ≠ "" ∧ c ≠ "." ∧ c ≠ ".." :=
    fun c hc => ⟨(hA c hc).1, (hA c hc).2.1, (hA c hc).2.2.1⟩
  have hnorm : normComps A = A := normComps_eq_self A hgood
  have hgoodp : ∀ c ∈ A.dropLast, plainComp c :=
    fun c hc => hA c (List.dropLast_subset A hc)
  constructor
  · have hs1 : shlexSplit "rm ../outside" = some ["rm", "../outside"] := by decide
    have htgt : resolveTok A "../outside" = A.dropLast ++ ["outside"] := by
      have hsw : startsWithChar '/' "../outside" = false := by decide
      simp only [resolveTok, hsw, Bool.false_eq_true, if_false]
      rw [show strComps "../outside" = ["..", "outside"] from by decide]
      rw [normComps_append, hnorm]
      show normStep (normStep A "..") "outside" = A.dropLast ++ ["outside"]
      rw [show normStep A ".." = A.dropLast from by simp [normStep]]
      simp [normStep]
    have hout1 : A.isPrefixOf (resolveTok A "../outside") = false := by
      rw [htgt]
      cases hb : A.isPrefixOf (A.dropLast ++ ["outside"]) with
      | false => rfl
      | true =>
        exact absurd (List.isPrefixOf_iff_prefix.mp hb)
          (not_prefix_parent_outside A hne hlast)
    rw [check_eq_checkPaths_of_fs _ A A "rm" ["../outside"] hs1 (by decide)]
    rw [show pathName "rm" = "rm" from by decide, hnorm]
    exact checkPaths_deny_first "rm" A A []
      (fun t ht => absurd ht (List.not_mem_nil t)) "../outside" [] (by decide) hout1
  · have hplain : ∀ x ∈ (pathStr A.dropLast ++ "/outside").data, plainChar x = true :=
      absToken_plain A.dropLast hgoodp
    obtain ⟨l, hl⟩ := pathChars_shape A.dropLast
    have hdata : (pathStr A.dropLast ++ "/outside").data =
        '/' :: (l ++ '/' :: String.data "outside") := by
      rw [absToken_data, hl]
      rfl
    have hne2 : (pathStr A.dropLast ++ "/outside") ≠ "" := by
      intro h0
      rw [h0] at hdata
      exact List.noConfusion hdata
    have hs2 := shlexSplit_rm (pathStr A.dropLast ++ "/outside") hne2 hplain
    have hflag2 : startsWithChar '-' (pathStr A.dropLast ++ "/outside") = false := by
      rw [startsWithChar_of_data '-' '/' _ _ hdata]
      decide
    have hsw2 : startsWithChar '/' (pathStr A.dropLast ++ "/outside") = true := by
      rw [startsWithChar_of_data '/' '/' _ _ hdata]
      decide
    have htgt2 : resolveTok A (pathStr A.dropLast ++ "/outside") =
        A.dropLast ++ ["outside"] := by
      simp only [resolveTok, hsw2, if_true]
      rw [strComps_absToken A.dropLast hgoodp]
      refine normComps_eq_self _ (fun c hc => ?_)
      rcases List.mem_append.mp hc with hc | hc
      · have h := hgoodp c hc
        exact ⟨h.1, h.2.1, h.2.2.1⟩
      · rcases List.mem_singleton.mp hc with rfl
        exact ⟨by decide, by decide, by decide⟩
    have hout2 : A.isPrefixOf (resolveTok A (pathStr A.dropLast ++ "/outside")) = false := by
      rw [htgt2]
      cases hb : A.isPrefixOf (A.dropLast ++ ["outside"]) with
      | false => rfl
      | true =>
        exact absurd (List.isPrefixOf_iff_prefix.mp hb)
          (not_prefix_parent_outside A hne hlast)
    rw [check_eq_checkPaths_of_fs _ A A "rm" [pathStr A.dropLast ++ "/outside"] hs2 (by decide)]
    rw [show pathName "rm" = "rm" from by decide, hnorm]
    exact checkPaths_deny_first "rm" A A []
      (fun t ht => absurd ht (List.not_mem_nil t))
      (pathStr A.dropLast ++ "/outside") [] hflag2 hout2

/-- Counterexample to C3 as stated: for the approved directory
`/home/outside` (whose final component happens to be named `outside`), both
commands resolve their argument to `/home/outside` = the approved root
itself, so both are Allowed — the promised verdict Denied does not hold for
every `A`. -/
theorem traversal_equivalence_cex :
    check_bash_directory_boundary "rm ../outside" ["home", "outside"] ["home", "outside"] =
      (true, none) ∧
    check_bash_directory_boundary ("rm " ++ (pathStr ["home"] ++ "/outside"))
      ["home", "outside"] ["home", "outside"] = (true, none) := by
  constructor
  · decide
  · decide

/-- Witness for C3: with approved directory `/home/user`, both
`rm ../outside` and `rm /home/outside` are denied. -/
theorem traversal_equivalence_witness :
    (∀ c ∈ (["home", "user"] : List String), plainComp c) ∧
    (["home", "user"] : List String) ≠ [] ∧
    (["home", "user"] : List String).getLast? ≠ some "outside" ∧
    check_bash_directory_boundary "rm ../outside" ["home", "user"] ["home", "user"] =
      (false, some (boundaryMsg "rm" "../outside" ["home", "user"])) ∧
    check_bash_directory_boundary
        ("rm " ++ (pathStr (["home", "user"] : List String).dropLast ++ "/outside"))
        ["home", "user"] ["home", "user"] =
      (false, some (boundaryMsg "rm"
        (pathStr (["home", "user"] : List String).dropLast ++ "/outside") ["home", "user"])) := by
  have hA : ∀ c ∈ (["home", "user"] : List String), plainComp c := by
    intro c hc
    rcases List.mem_cons.mp hc with rfl | hc
    · exact ⟨by decide, by decide, by decide, by decide⟩
    · rcases List.mem_singleton.mp hc with rfl
      exact ⟨by decide, by decide, by decide, by decide⟩
  obtain ⟨h1, h2⟩ := traversal_equivalence ["home", "user"] hA (by decide) (by decide)
  exact ⟨hA, by decide, by decide, h1, h2⟩

end Monitor
